import Mathlib

/-!
Verification of the `entry` module (src/src/entry.rs): the Entry data
structure of a proof-of-history chain, its hash-chain derivation function
`next_hash`, the verification predicate `Entry.verify`, and the constructors
`Entry.new_tick`, `create_entry`, `create_entry_mut` and `next_tick`.

The modules `hash`, `event`, `signature` and `transaction` are external to the
given sources; they are modelled from the spec (see the doc comments below).
-/

/-- Modelled from the spec: `Hash` is a fixed-width binary digest, opaque to the
core beyond equality and being the input/output of the one-way hash function.
Digests are modelled as natural numbers. -/
abbrev Hash : Type := Nat

/-- Modelled from the spec: the externally supplied one-way hash function
`hash(Hash) -> Hash` (module `hash` is absent from the sources). The spec
treats the digest as collision-free tamper evidence, so the model hash is an
injective function on digests. -/
def hash (h : Hash) : Hash := h + 1

/-- Injective encoding of a byte buffer into a digest, a helper for the model
of `extend_and_hash`. -/
def encodeBytes : List Nat → Nat
  | [] => 0
  | b :: rest => Nat.pair b (encodeBytes rest) + 1

/-- Modelled from the spec: the externally supplied mixing hash
`extend_and_hash(Hash, bytes) -> Hash` that combines a digest with a byte
buffer. Modelled as an injective pairing, again reflecting the spec treatment
of the binding hash as tamper evidence. -/
def extend_and_hash (id : Hash) (hash_data : List Nat) : Hash :=
  Nat.pair id (encodeBytes hash_data)

/-- Modelled from the spec: events are a closed variant set (Transaction,
Signature, Timestamp). Each variant carries a fixed-width signature block,
modelled as a single natural number standing for the signature bytes, and an
opaque self-verification verdict, modelled as a stored boolean (the core
consumes `verify()` as an opaque boolean-returning capability). -/
inductive Event : Type where
  | Transaction (sig : Nat) (ok : Bool)
  | Signature (sig : Nat) (ok : Bool)
  | Timestamp (sig : Nat) (ok : Bool)
deriving DecidableEq

/-- The event self-verification capability, consumed by `Entry.verify`. -/
def Event.verify : Event → Bool
  | .Transaction _ ok => ok
  | .Signature _ ok => ok
  | .Timestamp _ ok => ok

/-- `Entry` from src/src/entry.rs: a hash count, the resulting identifier, and
the events stamped into the entry. -/
structure Entry : Type where
  num_hashes : Nat
  id : Hash
  events : List Event
deriving DecidableEq

/-- `Entry::new_tick` from src/src/entry.rs. -/
def Entry.new_tick (num_hashes : Nat) (id : Hash) : Entry :=
  { num_hashes := num_hashes, id := id, events := [] }

/-- `add_event_data` from src/src/entry.rs: appends the variant discriminant
byte (0, 1 or 2) and then the event signature bytes to the buffer. The
fixed-width signature block is one element of the modelled buffer. -/
def add_event_data (hash_data : List Nat) (event : Event) : List Nat :=
  match event with
  | .Transaction sig _ => hash_data ++ [0, sig]
  | .Signature sig _ => hash_data ++ [1, sig]
  | .Timestamp sig _ => hash_data ++ [2, sig]

/-- The idle-hash loop body of `next_hash`: `n` successive applications of
`hash`, written as the Rust loop updates the accumulator. -/
def hashLoop : Nat → Hash → Hash
  | 0, id => id
  | n + 1, id => hashLoop n (hash id)

/-- `next_hash` from src/src/entry.rs. The Rust loop `for _ in 1..num_hashes`
performs `num_hashes - 1` iterations when `num_hashes >= 1` and none when
`num_hashes = 0`, which is `Nat` truncated subtraction. -/
def next_hash (start_hash : Hash) (num_hashes : Nat) (events : List Event) : Hash :=
  let id := hashLoop (num_hashes - 1) start_hash
  let hash_data := events.foldl add_event_data []
  if hash_data.isEmpty then id else extend_and_hash id hash_data

/-- `Entry::verify` from src/src/entry.rs. The parallel `par_iter().all` over
independent pure checks is embedded as `List.all`. -/
def Entry.verify (self : Entry) (start_hash : Hash) : Bool :=
  self.events.all (fun event => event.verify) &&
    decide (self.id = next_hash start_hash self.num_hashes self.events)

/-- `create_entry` from src/src/entry.rs. -/
def create_entry (start_hash : Hash) (cur_hashes : Nat) (events : List Event) : Entry :=
  { num_hashes := cur_hashes + if events.isEmpty then 0 else 1
    id := next_hash start_hash 0 events
    events := events }

/-- `create_entry_mut` from src/src/entry.rs. The two `&mut` cells are embedded
by explicit state passing: the result is the entry together with the post-call
contents of the start-hash cell and of the hash-count cell. -/
def create_entry_mut (start_hash : Hash) (cur_hashes : Nat) (events : List Event) :
    Entry × Hash × Nat :=
  let entry := create_entry start_hash cur_hashes events
  (entry, entry.id, 0)

/-- `next_tick` from src/src/entry.rs. -/
def next_tick (start_hash : Hash) (num_hashes : Nat) : Entry :=
  { num_hashes := num_hashes
    id := next_hash start_hash num_hashes []
    events := [] }

/-- Reference serialization of one event, following the words of the spec and
of claim C2: one discriminant byte, distinct per variant, followed by the
event signature bytes. -/
def eventDataSpec : Event → List Nat
  | .Transaction sig _ => [0, sig]
  | .Signature sig _ => [1, sig]
  | .Timestamp sig _ => [2, sig]

/-- Reference serialization of an event sequence, following the words of the
spec: the per-event byte strings concatenated in order. -/
def serializeSpec : List Event → List Nat
  | [] => []
  | e :: rest => eventDataSpec e ++ serializeSpec rest

/-- Reference iterated hash: `hash` applied to the digest exactly `n` times. -/
def applyHashN : Nat → Hash → Hash
  | 0, h => h
  | n + 1, h => hash (applyHashN n h)

/-- The reference computation of claim C2, following the words of the spec:
apply the one-way hash `num_hashes - 1` times when `num_hashes >= 1` and zero
times when `num_hashes = 0`; then, if the serialized event buffer is nonempty,
mix it in with `extend_and_hash`, and otherwise return the iterated digest
unchanged. -/
def next_hash_spec (start : Hash) (num_hashes : Nat) (events : List Event) : Hash :=
  let w := if num_hashes = 0 then start else applyHashN (num_hashes - 1) start
  let buf := serializeSpec events
  if buf = [] then w else extend_and_hash w buf

/-- `add_event_data` appends exactly the reference per-event byte string. -/
lemma add_event_data_eq (buf : List Nat) (e : Event) :
    add_event_data buf e = buf ++ eventDataSpec e := by
  cases e <;> rfl

/-- The buffer-building fold of `next_hash` is the reference serialization. -/
lemma foldl_add_event_data (l : List Event) (acc : List Nat) :
    l.foldl add_event_data acc = acc ++ serializeSpec l := by
  induction l generalizing acc with
  | nil => simp [serializeSpec]
  | cons e rest ih =>
    simp [List.foldl_cons, add_event_data_eq, serializeSpec, ih, List.append_assoc]

/-- Serialization distributes over list append. -/
lemma serializeSpec_append (A B : List Event) :
    serializeSpec (A ++ B) = serializeSpec A ++ serializeSpec B := by
  induction A with
  | nil => simp [serializeSpec]
  | cons e rest ih => simp [serializeSpec, ih, List.append_assoc]

/-- The serialized buffer is empty exactly when the event list is empty. -/
lemma serializeSpec_eq_nil_iff (l : List Event) : serializeSpec l = [] ↔ l = [] := by
  cases l with
  | nil => simp [serializeSpec]
  | cons e rest => cases e <;> simp [serializeSpec, eventDataSpec]

/-- The idle-hash loop on the model hash adds its iteration count. -/
lemma hashLoop_add (n : Nat) (h : Nat) : hashLoop n h = h + n := by
  induction n generalizing h with
  | zero => rfl
  | succ m ih =>
    rw [hashLoop, ih]
    show h + 1 + m = h + (m + 1)
    omega

/-- The reference iterated hash on the model hash adds its iteration count. -/
lemma applyHashN_add (n : Nat) (h : Nat) : applyHashN n h = h + n := by
  induction n with
  | zero => rfl
  | succ m ih =>
    rw [applyHashN, ih]
    show h + m + 1 = h + (m + 1)
    omega

/-- The byte-buffer encoding of the model mixing hash is injective. -/
lemma encodeBytes_inj : ∀ (l1 l2 : List Nat), encodeBytes l1 = encodeBytes l2 → l1 = l2 := by
  intro l1
  induction l1 with
  | nil =>
    intro l2 h
    cases l2 with
    | nil => rfl
    | cons b rest => simp [encodeBytes] at h
  | cons a r ih =>
    intro l2 h
    cases l2 with
    | nil => simp [encodeBytes] at h
    | cons b rest =>
      simp only [encodeBytes] at h
      have h2 : Nat.pair a (encodeBytes r) = Nat.pair b (encodeBytes rest) := by omega
      rw [Nat.pair_eq_pair] at h2
      rw [h2.1, ih rest h2.2]

/-- The model mixing hash is injective in both arguments. -/
lemma extend_and_hash_inj {i1 i2 : Hash} {d1 d2 : List Nat}
    (h : extend_and_hash i1 d1 = extend_and_hash i2 d2) : i1 = i2 ∧ d1 = d2 := by
  unfold extend_and_hash at h
  rw [Nat.pair_eq_pair] at h
  exact ⟨h.1, encodeBytes_inj _ _ h.2⟩

/-- `next_hash` written over the reference serialization. -/
lemma next_hash_eq (s : Hash) (n : Nat) (evs : List Event) :
    next_hash s n evs =
      if serializeSpec evs = [] then hashLoop (n - 1) s
      else extend_and_hash (hashLoop (n - 1) s) (serializeSpec evs) := by
  unfold next_hash
  rw [foldl_add_event_data, List.nil_append]
  cases hse : serializeSpec evs with
  | nil => simp
  | cons a r => simp

/-- Unfolding of the verification predicate into its two conditions. -/
lemma verify_iff (e : Entry) (s : Hash) :
    e.verify s = true ↔
      (∀ ev ∈ e.events, ev.verify = true) ∧
        e.id = next_hash s e.num_hashes e.events := by
  unfold Entry.verify
  simp [List.all_eq_true]

/-- Two self-valid events with the same serialized bytes are the same event. -/
lemma eventDataSpec_inj_of_verify {x y : Event} (hx : x.verify = true)
    (hy : y.verify = true) (h : eventDataSpec x = eventDataSpec y) : x = y := by
  cases x <;> cases y <;> simp_all [eventDataSpec, Event.verify]

/-- Every event serializes to a two-element buffer: discriminant then the
signature block. -/
lemma eventDataSpec_pair (e : Event) : ∃ d s, eventDataSpec e = [d, s] := by
  cases e <;> exact ⟨_, _, rfl⟩

/-- C1: for every entry and start hash, `Entry.verify start` returns true iff
every event in the entry's events list reports itself valid and the entry's id
equals `next_hash start num_hashes events`. -/
theorem entry_verify_characterization (e : Entry) (start : Hash) :
    e.verify start = true ↔
      (∀ ev ∈ e.events, ev.verify = true) ∧
        e.id = next_hash start e.num_hashes e.events :=
  verify_iff e start

/-- C2: `next_hash` agrees with the reference computation of the spec: iterate
the one-way hash `num_hashes - 1` times (zero times when `num_hashes = 0`),
serialize the events as discriminant byte plus signature bytes, and mix the
buffer in with `extend_and_hash` exactly when it is nonempty. -/
theorem next_hash_matches_spec (start : Hash) (n : Nat) (events : List Event) :
    next_hash start n events = next_hash_spec start n events := by
  have hiter : hashLoop (n - 1) start
      = if n = 0 then start else applyHashN (n - 1) start := by
    rcases Nat.eq_zero_or_pos n with h0 | hpos
    · subst h0; rfl
    · rw [if_neg (Nat.pos_iff_ne_zero.mp hpos), hashLoop_add, applyHashN_add]
  rw [next_hash_eq, hiter]
  rfl

/-- C3: `create_entry` stores `cur_hashes` plus one when events are present and
plus zero otherwise, and derives the id with a hash count of zero. -/
theorem create_entry_fields (start : Hash) (cur_hashes : Nat) (events : List Event) :
    (create_entry start cur_hashes events).num_hashes
        = cur_hashes + (if events.isEmpty then 0 else 1) ∧
      (create_entry start cur_hashes events).id = next_hash start 0 events :=
  ⟨rfl, rfl⟩

/-- C6: `Entry.new_tick 0 start` verifies against `start` and against no other
identifier. -/
theorem new_tick_verify_base (start : Hash) :
    (Entry.new_tick 0 start).verify start = true ∧
      ∀ x : Hash, x ≠ start → (Entry.new_tick 0 start).verify x = false := by
  constructor
  · exact (verify_iff _ _).mpr ⟨by simp [Entry.new_tick], rfl⟩
  · intro x hx
    have hx2 : next_hash x 0 [] = x := rfl
    have hsx : start ≠ x := fun h => hx h.symm
    simp [Entry.verify, Entry.new_tick, hx2, hsx]

/-- C6 witness at start = 0 and x = 1. -/
theorem new_tick_verify_base_witness :
    (Entry.new_tick 0 0).verify 0 = true ∧ (Entry.new_tick 0 0).verify 1 = false :=
  ⟨(new_tick_verify_base 0).1, (new_tick_verify_base 0).2 1 (by decide)⟩

/-- C7: for `n >= 1`, `next_tick start n` verifies against `start` and against
no other identifier. -/
theorem next_tick_verify_chain (start : Hash) (n : Nat) (hn : 1 ≤ n) :
    (next_tick start n).verify start = true ∧
      ∀ x : Hash, x ≠ start → (next_tick start n).verify x = false := by
  constructor
  · exact (verify_iff _ _).mpr ⟨by simp [next_tick], rfl⟩
  · intro x hx
    have h1 : next_hash start n [] = start + (n - 1) := by
      rw [next_hash_eq]
      simp [serializeSpec, hashLoop_add]
    have h2 : next_hash x n [] = x + (n - 1) := by
      rw [next_hash_eq]
      simp [serializeSpec, hashLoop_add]
    have hne : start + (n - 1) ≠ x + (n - 1) :=
      fun hc => hx (Nat.add_right_cancel hc).symm
    simp [Entry.verify, next_tick, h1, h2, hne]

/-- C7 witness at start = 0, n = 2 and x = 1. -/
theorem next_tick_verify_chain_witness :
    (next_tick 0 2).verify 0 = true ∧ (next_tick 0 2).verify 1 = false :=
  ⟨(next_tick_verify_chain 0 2 (by decide)).1,
    (next_tick_verify_chain 0 2 (by decide)).2 1 (by decide)⟩

/-- C8: `create_entry_mut` returns the entry `create_entry` builds from the
pre-call cell contents, and afterwards the start-hash cell holds that entry's
id and the hash-count cell holds zero. -/
theorem create_entry_mut_state (start_hash : Hash) (cur_hashes : Nat) (events : List Event) :
    create_entry_mut start_hash cur_hashes events =
      (create_entry start_hash cur_hashes events,
        (create_entry start_hash cur_hashes events).id, 0) :=
  rfl

/-- C9: hash counts 0 and 1 produce the same derived identifier, since the
idle-hash loop runs `num_hashes - 1` iterations in both cases. -/
theorem next_hash_zero_eq_one (start : Hash) (events : List Event) :
    next_hash start 0 events = next_hash start 1 events :=
  rfl

/-- C10: a zero-event `create_entry` keeps the identifier unchanged, stores
`cur_hashes` as the count, and carries no events. -/
theorem create_entry_no_events (start : Hash) (cur_hashes : Nat) :
    (create_entry start cur_hashes []).id = start ∧
      (create_entry start cur_hashes []).num_hashes = cur_hashes ∧
      (create_entry start cur_hashes []).events = [] :=
  ⟨rfl, rfl, rfl⟩

/-- C4 counterexample: with an empty event list and `cur_hashes = 1`, the id
derived by `create_entry` (hash count 0) also agrees with the id recomputed by
verification (hash count `1 + 0`), so agreement does not hold only at
`cur_hashes = 0`. -/
theorem create_entry_consistency_cex :
    next_hash 0 0 ([] : List Event)
        = next_hash 0 (1 + if ([] : List Event).isEmpty then 0 else 1) ([] : List Event)
      ∧ (1 : Nat) ≠ 0 :=
  ⟨rfl, by decide⟩

/-- C4 amended: `next_hash start 0 events` equals
`next_hash start (cur_hashes + (1 if events nonempty else 0)) events` exactly
when `cur_hashes = 0`, or when `events` is empty and `cur_hashes = 1` (hash
counts 0 and 1 are indistinguishable); for no other value of `cur_hashes`. -/
theorem create_entry_consistency_iff (start : Hash) (cur_hashes : Nat) (events : List Event) :
    (next_hash start 0 events
        = next_hash start (cur_hashes + if events.isEmpty then 0 else 1) events)
      ↔ (cur_hashes = 0 ∨ (events = [] ∧ cur_hashes = 1)) := by
  cases events with
  | nil =>
    have h1 : next_hash start 0 ([] : List Event) = start := rfl
    rw [h1, next_hash_eq]
    simp only [serializeSpec, List.isEmpty_nil, if_true, reduceIte, hashLoop_add,
      Nat.add_zero, List.nil_append]
    rw [Nat.self_eq_add_right]
    simp only [List.cons_ne_nil, true_and, and_true, eq_self_iff_true]
    omega
  | cons e rest =>
    rw [next_hash_eq, next_hash_eq]
    have hne : serializeSpec (e :: rest) ≠ [] := by
      simp [serializeSpec_eq_nil_iff]
    rw [if_neg hne, if_neg hne]
    have hnum : (cur_hashes + if (e :: rest).isEmpty then 0 else 1) = cur_hashes + 1 := by
      simp
    rw [hnum]
    constructor
    · intro h
      obtain ⟨hid, -⟩ := extend_and_hash_inj h
      rw [hashLoop_add, hashLoop_add] at hid
      have hcancel := Nat.add_left_cancel hid
      left
      omega
    · intro h
      rcases h with h0 | ⟨hfalse, -⟩
      · subst h0
        rfl
      · exact absurd hfalse (by simp)

/-- C5 counterexample: a verified entry holding two copies of the same valid
event; swapping the events at positions 0 and 1 produces the same events list,
and the entry still verifies, so the swap does not always break verification. -/
theorem swap_equal_events_keeps_verify :
    (Entry.mk 1 (next_hash 0 1 [Event.Transaction 5 true, Event.Transaction 5 true])
        [Event.Transaction 5 true, Event.Transaction 5 true]).verify 0 = true
      ∧ (Entry.mk 1 (next_hash 0 1 [Event.Transaction 5 true, Event.Transaction 5 true])
        [Event.Transaction 5 true, Event.Transaction 5 true]).verify 0 = true :=
  ⟨(verify_iff _ _).mpr ⟨by decide, rfl⟩, (verify_iff _ _).mpr ⟨by decide, rfl⟩⟩

/-- C5 amended: in an entry that verifies against `start`, swapping the events
at two distinct positions makes verification against `start` return false,
provided the two swapped events are distinct. -/
theorem swap_distinct_events_breaks_verify (start : Hash) (n : Nat) (i : Hash)
    (A B C : List Event) (x y : Event) (hxy : x ≠ y)
    (hv : (Entry.mk n i (A ++ x :: B ++ y :: C)).verify start = true) :
    (Entry.mk n i (A ++ y :: B ++ x :: C)).verify start = false := by
  obtain ⟨hall, hid⟩ := (verify_iff _ _).mp hv
  have hxok : x.verify = true := hall x (by simp)
  have hyok : y.verify = true := hall y (by simp)
  have hkey : next_hash start n (A ++ x :: B ++ y :: C)
      ≠ next_hash start n (A ++ y :: B ++ x :: C) := by
    rw [next_hash_eq, next_hash_eq]
    have h1 : serializeSpec (A ++ x :: B ++ y :: C) ≠ [] := by
      simp [serializeSpec_eq_nil_iff]
    have h2 : serializeSpec (A ++ y :: B ++ x :: C) ≠ [] := by
      simp [serializeSpec_eq_nil_iff]
    rw [if_neg h1, if_neg h2]
    intro hcontra
    obtain ⟨-, hbuf⟩ := extend_and_hash_inj hcontra
    simp only [serializeSpec_append, serializeSpec, List.append_assoc] at hbuf
    have hbuf2 := List.append_cancel_left hbuf
    obtain ⟨dx0, dx1, hdx⟩ := eventDataSpec_pair x
    obtain ⟨dy0, dy1, hdy⟩ := eventDataSpec_pair y
    rw [hdx, hdy] at hbuf2
    simp only [List.cons_append, List.nil_append] at hbuf2
    rw [List.cons.injEq, List.cons.injEq] at hbuf2
    have hdata : eventDataSpec x = eventDataSpec y := by
      rw [hdx, hdy, hbuf2.1, hbuf2.2.1]
    exact hxy (eventDataSpec_inj_of_verify hxok hyok hdata)
  cases hb : (Entry.mk n i (A ++ y :: B ++ x :: C)).verify start with
  | false => rfl
  | true =>
    obtain ⟨-, hid2⟩ := (verify_iff _ _).mp hb
    exact absurd (hid.symm.trans hid2) hkey

/-- C5 witness: swapping the two distinct transactions of a concrete verified
entry makes verification fail. -/
theorem swap_distinct_events_breaks_verify_witness :
    (Entry.mk 1 (next_hash 0 1 [Event.Transaction 5 true, Event.Transaction 7 true])
        [Event.Transaction 7 true, Event.Transaction 5 true]).verify 0 = false :=
  swap_distinct_events_breaks_verify 0 1 _ [] [] []
    (Event.Transaction 5 true) (Event.Transaction 7 true) (by decide)
    ((verify_iff _ _).mpr ⟨by decide, rfl⟩)
